import Mathlib

/-
Verification of the inventory record store implemented in inventory.py.

The store is a Python dict mapping a normalized (stripped, lower-cased)
product name to a Product record.  We model the dict as an association
list that mirrors CPython dict semantics: assignment to an existing key
replaces the value in place (keeping the key position), assignment to a
fresh key appends at the end, and iteration over values follows that
order.  Python str.strip / str.lower are modelled character-wise over
the ASCII range (Char.isWhitespace matches the whitespace the inputs
contain); prices are modelled as rationals, which is faithful here
because the program only stores, copies and compares prices and never
does float arithmetic on them; timestamps produced by datetime.now are
modelled as an explicit string argument to each mutating operation.
Console printing is projected away; each operation returns the data the
printed messages are computed from (lookup results, outcome flags).
-/

namespace Inventory

/-- Whitespace test used by the model of Python str.strip. -/
def pyIsSpace (c : Char) : Bool := c.isWhitespace

/-- Model of Python str.lower on a single character (ASCII range). -/
def lowerChar (c : Char) : Char :=
  if 65 ≤ c.toNat ∧ c.toNat ≤ 90 then Char.ofNat (c.toNat + 32) else c

/-- Model of Python str.strip on a character list: drop leading and
trailing whitespace. -/
def stripList (l : List Char) : List Char :=
  ((l.dropWhile pyIsSpace).reverse.dropWhile pyIsSpace).reverse

/-- Model of Python str.strip. -/
def pyStrip (s : String) : String := ⟨stripList s.data⟩

/-- Model of Python str.lower. -/
def pyLower (s : String) : String := ⟨s.data.map lowerChar⟩

/-- Name normalization performed by the store: name.strip().lower()
(inventory.py lines 82, 98, 138, 171, 197). -/
def normalize (s : String) : String := pyLower (pyStrip s)

/-- One inventory record (class Product, inventory.py lines 13-22). -/
structure Product where
  name : String
  quantity : Int
  price : Rat
  category : String
  created_at : String
  updated_at : String
deriving DecidableEq

/-- The in-memory store: a Python dict from name key to record,
modelled as an insertion-ordered association list. -/
abbrev Store := List (String × Product)

/-- Dict lookup (Python: name in self.inventory / self.inventory[name]). -/
def lookupKey : Store → String → Option Product
  | [], _ => none
  | e :: rest, k => if e.1 = k then some e.2 else lookupKey rest k

/-- Dict assignment (Python: self.inventory[name] = product): replace the
value at an existing key in place, otherwise append a new entry. -/
def dictSet : Store → String → Product → Store
  | [], k, v => [(k, v)]
  | e :: rest, k, v => if e.1 = k then (e.1, v) :: rest else e :: dictSet rest k v

/-- Dict deletion (Python: del self.inventory[name]). -/
def dictDel (inv : Store) (k : String) : Store :=
  inv.filter (fun e => !(e.1 = k : Bool))

/-- Key list of the store, in insertion order. -/
def keys (inv : Store) : List String := inv.map Prod.fst

/-- Dictionary snapshot of one record (Product.to_dict, lines 24-33).
Every field is written; Option models which keys a JSON dict may omit. -/
structure ProductDict where
  name : String
  quantity : Int
  price : Rat
  category : Option String
  created_at : Option String
  updated_at : Option String
deriving DecidableEq

/-- Product.to_dict (inventory.py lines 24-33): all six fields present. -/
def to_dict (p : Product) : ProductDict :=
  { name := p.name
    quantity := p.quantity
    price := p.price
    category := some p.category
    created_at := some p.created_at
    updated_at := some p.updated_at }

/-- Product.from_dict (inventory.py lines 35-41): the constructor sets
both timestamps to now, then each is overridden by the stored value when
present; category defaults to "General". -/
def from_dict (d : ProductDict) (now : String) : Product :=
  { name := d.name
    quantity := d.quantity
    price := d.price
    category := d.category.getD "General"
    created_at := d.created_at.getD now
    updated_at := d.updated_at.getD now }

/-- InventoryManager.save_inventory (lines 70-78): serialize every entry,
keeping dict order; the JSON file is the resulting key-to-dict object. -/
def save_inventory (inv : Store) : List (String × ProductDict) :=
  inv.map (fun e => (e.1, to_dict e.2))

/-- InventoryManager.load_inventory (lines 56-68): starting from the empty
dict, assign each file entry under its file key, unchanged. -/
def load_inventory (data : List (String × ProductDict)) (now : String) : Store :=
  data.foldl (fun inv e => dictSet inv e.1 (from_dict e.2 now)) []

/-- InventoryManager.add_product (lines 80-94): normalize the name; on an
existing key add to the quantity and refresh updated_at, otherwise create
a fresh record (created_at = updated_at = now).  Saves in both branches. -/
def add_product (inv : Store) (name : String) (quantity : Int) (price : Rat)
    (category : String) (now : String) : Store :=
  let n := normalize name
  match lookupKey inv n with
  | some p => dictSet inv n { p with quantity := p.quantity + quantity, updated_at := now }
  | none =>
    dictSet inv n
      { name := n, quantity := quantity, price := price, category := category
        created_at := now, updated_at := now }

/-- InventoryManager.view_product (lines 96-113): case-insensitive lookup;
returns the record, or none after printing the not-found message.  The
method never assigns to the store. -/
def view_product (inv : Store) (name : String) : Option Product :=
  lookupKey inv (normalize name)

/-- Outcome reported by update_product: the not-found message (line 141),
the no-changes message (line 167), or a successful save (lines 162-165). -/
inductive UpdateOutcome
  | notFound
  | noChanges
  | updated
deriving DecidableEq

/-- InventoryManager.update_product (lines 136-167): overwrite exactly the
supplied fields, refresh updated_at and save when at least one field was
supplied; otherwise the store is untouched. -/
def update_product (inv : Store) (name : String) (quantity : Option Int)
    (price : Option Rat) (category : Option String) (now : String) :
    Store × UpdateOutcome :=
  let n := normalize name
  match lookupKey inv n with
  | none => (inv, UpdateOutcome.notFound)
  | some p =>
    let p1 := match quantity with
      | some q => { p with quantity := q }
      | none => p
    let p2 := match price with
      | some pr => { p1 with price := pr }
      | none => p1
    let p3 := match category with
      | some c => { p2 with category := c }
      | none => p2
    if quantity.isSome || price.isSome || category.isSome then
      (dictSet inv n { p3 with updated_at := now }, UpdateOutcome.updated)
    else
      (inv, UpdateOutcome.noChanges)

/-- InventoryManager.remove_product (lines 169-193).  The Bool records
whether save_inventory ran (it runs in every branch except not-found,
where the method returns early). -/
def remove_product (inv : Store) (name : String) (quantity : Option Int)
    (now : String) : Store × Bool :=
  let n := normalize name
  match lookupKey inv n with
  | none => (inv, false)
  | some p =>
    match quantity with
    | none => (dictDel inv n, true)
    | some q =>
      if q ≥ p.quantity then (dictDel inv n, true)
      else (dictSet inv n { p with quantity := p.quantity - q, updated_at := now }, true)

/-- Boolean test that a list starts with the given list. -/
def listStartsWith : List Char → List Char → Bool
  | [], _ => true
  | _ :: _, [] => false
  | a :: as, b :: bs => a == b && listStartsWith as bs

/-- Model of Python substring containment (needle in haystack). -/
def subOf (needle : List Char) : List Char → Bool
  | [] => needle.isEmpty
  | b :: bs => listStartsWith needle (b :: bs) || subOf needle bs

/-- InventoryManager.search_products (lines 195-214): strip and lower the
query, keep the records whose lowered name or lowered category contains
it, and print them sorted by record name (Python sorted is a stable
merge sort). -/
def search_products (inv : Store) (query : String) : List Product :=
  let q := normalize query
  ((inv.map Prod.snd).filter
      (fun p => subOf q.data (pyLower p.name).data || subOf q.data (pyLower p.category).data)
    ).mergeSort (fun a b => decide (a.name ≤ b.name))

/-- InventoryManager.low_stock_alert (lines 216-228): keep the records
with quantity at most the threshold, sorted ascending by quantity. -/
def low_stock_alert (inv : Store) (threshold : Int) : List Product :=
  ((inv.map Prod.snd).filter (fun p => decide (p.quantity ≤ threshold))
    ).mergeSort (fun a b => decide (a.quantity ≤ b.quantity))

/-- Substring containment as a proposition, for the specification side. -/
def SubstrOf (q s : String) : Prop :=
  ∃ l r, s.data = l ++ q.data ++ r

/-- Specification-side match predicate of search: the name or the
category contains the query under case-insensitive comparison. -/
def MatchesQuery (q : String) (p : Product) : Prop :=
  SubstrOf (pyLower q) (pyLower p.name) ∨ SubstrOf (pyLower q) (pyLower p.category)

/-- Well-formedness every Python dict enjoys: keys are pairwise distinct. -/
def WF (inv : Store) : Prop := (keys inv).Nodup

/-- Keys of the store coincide with their own normalized form. -/
def NormalizedKeys (inv : Store) : Prop :=
  ∀ k ∈ keys inv, normalize k = k

/-- The store invariant claimed by the specification: normalized,
pairwise-distinct keys. -/
def Invariant (inv : Store) : Prop := NormalizedKeys inv ∧ WF inv

instance (inv : Store) : Decidable (WF inv) :=
  inferInstanceAs (Decidable ((keys inv).Nodup))

/-! Basic lemmas about the dict model. -/

theorem keys_nil : keys ([] : Store) = [] := rfl

theorem keys_cons (e : String × Product) (rest : Store) :
    keys (e :: rest) = e.1 :: keys rest := rfl

theorem lookupKey_cons (e : String × Product) (rest : Store) (k : String) :
    lookupKey (e :: rest) k = if e.1 = k then some e.2 else lookupKey rest k := rfl

theorem dictSet_cons (e : String × Product) (rest : Store) (k : String) (v : Product) :
    dictSet (e :: rest) k v = if e.1 = k then (e.1, v) :: rest else e :: dictSet rest k v := rfl

theorem dictDel_cons (e : String × Product) (rest : Store) (k : String) :
    dictDel (e :: rest) k =
      if e.1 = k then dictDel rest k else e :: dictDel rest k := by
  by_cases h : e.1 = k <;> simp [dictDel, List.filter_cons, h]

theorem lookupKey_eq_none_iff (inv : Store) (k : String) :
    lookupKey inv k = none ↔ k ∉ keys inv := by
  induction inv with
  | nil => simp [lookupKey, keys]
  | cons e rest ih =>
    rw [lookupKey_cons, keys_cons]
    by_cases h : e.1 = k
    · subst h
      simp
    · have h2 : ¬ k = e.1 := fun hk => h hk.symm
      simp [h, h2, ih]

theorem mem_keys_of_lookupKey {inv : Store} {k : String} {p : Product}
    (h : lookupKey inv k = some p) : k ∈ keys inv := by
  by_contra hk
  rw [← lookupKey_eq_none_iff] at hk
  rw [h] at hk
  exact Option.noConfusion hk

theorem lookupKey_dictSet (inv : Store) (k : String) (v : Product) (q : String) :
    lookupKey (dictSet inv k v) q = if q = k then some v else lookupKey inv q := by
  induction inv with
  | nil =>
    by_cases h : q = k
    · subst h
      simp [dictSet, lookupKey]
    · have h2 : ¬ k = q := fun hk => h hk.symm
      simp [dictSet, lookupKey, h, h2]
  | cons e rest ih =>
    rw [dictSet_cons]
    by_cases he : e.1 = k
    · rw [if_pos he, lookupKey_cons, lookupKey_cons]
      by_cases hq : q = k
      · subst hq
        simp [he]
      · have h2 : ¬ e.1 = q := fun hk => hq (hk.symm.trans he)
        simp [h2, hq]
    · rw [if_neg he, lookupKey_cons, lookupKey_cons, ih]
      by_cases hq : e.1 = q
      · have h2 : ¬ q = k := fun hk => he (hq.trans hk)
        simp [hq, h2]
      · simp [hq]

theorem keys_dictSet_of_mem {inv : Store} {k : String} (v : Product)
    (h : k ∈ keys inv) : keys (dictSet inv k v) = keys inv := by
  induction inv with
  | nil => simp [keys] at h
  | cons e rest ih =>
    rw [dictSet_cons]
    by_cases he : e.1 = k
    · rw [if_pos he, keys_cons, keys_cons]
    · rw [if_neg he, keys_cons, keys_cons]
      have hr : k ∈ keys rest := by
        rw [keys_cons, List.mem_cons] at h
        rcases h with h1 | h1
        · exact absurd h1.symm he
        · exact h1
      rw [ih hr]

theorem dictSet_eq_append (inv : Store) (k : String) (v : Product)
    (h : k ∉ keys inv) : dictSet inv k v = inv ++ [(k, v)] := by
  induction inv with
  | nil => rfl
  | cons e rest ih =>
    rw [keys_cons, List.mem_cons] at h
    push_neg at h
    have he : ¬ e.1 = k := fun hk => h.1 hk.symm
    rw [dictSet_cons, if_neg he, ih h.2, List.cons_append]

theorem lookupKey_dictDel (inv : Store) (k : String) (q : String) :
    lookupKey (dictDel inv k) q = if q = k then none else lookupKey inv q := by
  induction inv with
  | nil => simp [dictDel, lookupKey]
  | cons e rest ih =>
    rw [dictDel_cons]
    by_cases he : e.1 = k
    · rw [if_pos he, ih, lookupKey_cons]
      by_cases hq : q = k
      · simp [hq]
      · have h2 : ¬ e.1 = q := fun hk => hq (hk.symm.trans he)
        simp [hq, h2]
    · rw [if_neg he, lookupKey_cons, lookupKey_cons, ih]
      by_cases hq : e.1 = q
      · have h2 : ¬ q = k := fun hk => he (hq.trans hk)
        simp [hq, h2]
      · simp [hq]

theorem keys_dictDel_sublist (inv : Store) (k : String) :
    (keys (dictDel inv k)).Sublist (keys inv) := by
  induction inv with
  | nil => simp [dictDel, keys]
  | cons e rest ih =>
    rw [dictDel_cons]
    by_cases he : e.1 = k
    · rw [if_pos he, keys_cons]
      exact ih.cons e.1
    · rw [if_neg he, keys_cons, keys_cons]
      exact ih.cons₂ e.1

/-! Lemmas about the normalization function: it is idempotent, which is
what makes re-normalizing an already normalized key a no-op. -/

theorem toNat_ofNat_of_le (n : Nat) (h : n ≤ 122) : (Char.ofNat n).toNat = n := by
  have hv : n.isValidChar := Or.inl (by omega)
  simp [Char.ofNat, hv, Char.ofNatAux, Char.toNat, UInt32.toNat, BitVec.toNat_ofNatLt]

theorem lowerChar_lowerChar (c : Char) : lowerChar (lowerChar c) = lowerChar c := by
  unfold lowerChar
  by_cases h : 65 ≤ c.toNat ∧ c.toNat ≤ 90
  · rw [if_pos h]
    have ht : (Char.ofNat (c.toNat + 32)).toNat = c.toNat + 32 :=
      toNat_ofNat_of_le (c.toNat + 32) (by omega)
    rw [if_neg (by rw [ht]; omega)]
  · rw [if_neg h, if_neg h]

theorem char_eq_iff_toNat (c d : Char) : c = d ↔ c.toNat = d.toNat := by
  rw [Char.ext_iff, UInt32.ext_iff]
  exact Iff.rfl

theorem pyIsSpace_toNat (c : Char) :
    pyIsSpace c = true ↔ (c.toNat = 32 ∨ c.toNat = 9 ∨ c.toNat = 13 ∨ c.toNat = 10) := by
  unfold pyIsSpace Char.isWhitespace
  simp only [Bool.or_eq_true, decide_eq_true_eq, char_eq_iff_toNat]
  constructor
  · rintro (((h | h) | h) | h)
    · exact Or.inl h
    · exact Or.inr (Or.inl h)
    · exact Or.inr (Or.inr (Or.inl h))
    · exact Or.inr (Or.inr (Or.inr h))
  · rintro (h | h | h | h)
    · exact Or.inl (Or.inl (Or.inl h))
    · exact Or.inl (Or.inl (Or.inr h))
    · exact Or.inl (Or.inr h)
    · exact Or.inr h

theorem pyIsSpace_eq_false_of_toNat {c : Char}
    (h : c.toNat ≠ 32 ∧ c.toNat ≠ 9 ∧ c.toNat ≠ 13 ∧ c.toNat ≠ 10) :
    pyIsSpace c = false := by
  cases hb : pyIsSpace c
  · rfl
  · rcases (pyIsSpace_toNat c).mp hb with h1 | h1 | h1 | h1 <;> omega

theorem pyIsSpace_lowerChar (c : Char) : pyIsSpace (lowerChar c) = pyIsSpace c := by
  unfold lowerChar
  by_cases h : 65 ≤ c.toNat ∧ c.toNat ≤ 90
  · rw [if_pos h]
    have ht : (Char.ofNat (c.toNat + 32)).toNat = c.toNat + 32 :=
      toNat_ofNat_of_le (c.toNat + 32) (by omega)
    have h1 : pyIsSpace (Char.ofNat (c.toNat + 32)) = false :=
      pyIsSpace_eq_false_of_toNat (by rw [ht]; omega)
    have h2 : pyIsSpace c = false :=
      pyIsSpace_eq_false_of_toNat (by omega)
    rw [h1, h2]
  · rw [if_neg h]

theorem dropWhile_eq_cons_false {α : Type} {p : α → Bool} {l : List α} {x : α} {t : List α}
    (h : l.dropWhile p = x :: t) : p x = false := by
  induction l with
  | nil => simp [List.dropWhile] at h
  | cons a as ih =>
    rw [List.dropWhile_cons] at h
    split at h
    · exact ih h
    · cases h
      rename_i hpx
      simp only [Bool.not_eq_true] at hpx
      exact hpx

theorem dropWhile_dropWhile {α : Type} (p : α → Bool) (l : List α) :
    (l.dropWhile p).dropWhile p = l.dropWhile p := by
  cases h : l.dropWhile p with
  | nil => simp
  | cons x t =>
    have hx := dropWhile_eq_cons_false h
    rw [List.dropWhile_cons, if_neg (by simp [hx])]

theorem stripList_stripList (l : List Char) : stripList (stripList l) = stripList l := by
  unfold stripList
  set A := l.dropWhile pyIsSpace with hA
  set r := A.reverse.dropWhile pyIsSpace with hr
  have h1 : r.reverse.dropWhile pyIsSpace = r.reverse := by
    cases hrr : r.reverse with
    | nil => simp
    | cons x t =>
      obtain ⟨u, hu⟩ := @List.dropWhile_suffix Char A.reverse pyIsSpace
      rw [← hr] at hu
      have hA2 : A = x :: (t ++ u.reverse) := by
        have h3 := congrArg List.reverse hu
        rw [List.reverse_append, List.reverse_reverse] at h3
        rw [← h3, hrr, List.cons_append]
      have hx : pyIsSpace x = false :=
        dropWhile_eq_cons_false (hA.symm.trans hA2)
      rw [List.dropWhile_cons, if_neg (by simp [hx])]
  rw [h1, List.reverse_reverse, hr, dropWhile_dropWhile]

theorem stripList_map_lowerChar (l : List Char) :
    stripList (l.map lowerChar) = (stripList l).map lowerChar := by
  have hps : pyIsSpace ∘ lowerChar = pyIsSpace := funext pyIsSpace_lowerChar
  unfold stripList
  rw [List.dropWhile_map, hps, ← List.map_reverse, List.dropWhile_map, hps, ← List.map_reverse]

theorem normalize_normalize (s : String) : normalize (normalize s) = normalize s := by
  apply String.ext
  show (stripList ((stripList s.data).map lowerChar)).map lowerChar
      = (stripList s.data).map lowerChar
  rw [stripList_map_lowerChar, stripList_stripList, List.map_map]
  exact List.map_congr_left (fun a _ => lowerChar_lowerChar a)

/-! Substring containment: the boolean used by the search model agrees
with the existential characterization used on the specification side. -/

theorem listStartsWith_iff (n : List Char) : ∀ h : List Char,
    (listStartsWith n h = true ↔ ∃ r, h = n ++ r) := by
  induction n with
  | nil => intro h; simp [listStartsWith]
  | cons a as ih =>
    intro h
    cases h with
    | nil =>
      simp [listStartsWith]
    | cons b bs =>
      simp only [listStartsWith, Bool.and_eq_true, beq_iff_eq, ih bs, List.cons_append]
      constructor
      · rintro ⟨rfl, r, rfl⟩
        exact ⟨r, rfl⟩
      · rintro ⟨r, hr⟩
        injection hr with h1 h2
        exact ⟨h1.symm, r, h2⟩

theorem subOf_iff (n : List Char) : ∀ h : List Char,
    (subOf n h = true ↔ ∃ l r, h = l ++ n ++ r) := by
  intro h
  induction h with
  | nil =>
    simp only [subOf, List.isEmpty_iff]
    constructor
    · rintro rfl
      exact ⟨[], [], rfl⟩
    · rintro ⟨l, r, hr⟩
      rcases List.append_eq_nil.mp (List.append_eq_nil.mp hr.symm).1 with ⟨-, h2⟩
      exact h2
  | cons b bs ih =>
    simp only [subOf, Bool.or_eq_true, listStartsWith_iff, ih]
    constructor
    · rintro (⟨r, hr⟩ | ⟨l, r, hr⟩)
      · exact ⟨[], r, by simpa using hr⟩
      · exact ⟨b :: l, r, by simp [hr]⟩
    · rintro ⟨l, r, hr⟩
      cases l with
      | nil =>
        exact Or.inl ⟨r, by simpa using hr⟩
      | cons x xs =>
        rw [List.cons_append, List.cons_append] at hr
        injection hr with h1 h2
        exact Or.inr ⟨xs, r, h2⟩

theorem SubstrOf_iff (q s : String) : SubstrOf q s ↔ subOf q.data s.data = true :=
  (subOf_iff q.data s.data).symm

theorem MatchesQuery_iff (q : String) (p : Product) :
    MatchesQuery q p ↔
      (subOf (pyLower q).data (pyLower p.name).data ||
       subOf (pyLower q).data (pyLower p.category).data) = true := by
  rw [MatchesQuery, SubstrOf_iff, SubstrOf_iff, Bool.or_eq_true]

/-! Round-trip lemmas: loading is folding dict assignment over the file
entries, which rebuilds the entries in order when the keys are fresh. -/

theorem from_dict_to_dict (p : Product) (now : String) :
    from_dict (to_dict p) now = p := rfl

theorem foldl_dictSet_eq (data : List (String × Product)) : ∀ acc : Store,
    (∀ k ∈ data.map Prod.fst, k ∉ keys acc) → (data.map Prod.fst).Nodup →
    data.foldl (fun i e => dictSet i e.1 e.2) acc = acc ++ data := by
  induction data with
  | nil => intro acc _ _; simp
  | cons e rest ih =>
    intro acc hdisj hnodup
    simp only [List.map_cons, List.nodup_cons] at hnodup
    have he : e.1 ∉ keys acc := hdisj e.1 (by simp)
    rw [List.foldl_cons, dictSet_eq_append acc e.1 e.2 he]
    have hd2 : ∀ k ∈ rest.map Prod.fst, k ∉ keys (acc ++ [e]) := by
      intro k hk
      simp only [keys, List.map_append, List.mem_append, List.map_cons, List.map_nil,
        List.mem_singleton]
      rintro (h1 | h1)
      · exact hdisj k (by simp [hk]) h1
      · exact hnodup.1 (h1 ▸ hk)
    rw [ih (acc ++ [e]) hd2 hnodup.2, List.append_assoc, List.singleton_append]

theorem load_inventory_eq (data : List (String × ProductDict)) (now : String)
    (hnodup : (data.map Prod.fst).Nodup) :
    load_inventory data now = data.map (fun e => (e.1, from_dict e.2 now)) := by
  unfold load_inventory
  have h1 : data.foldl (fun i e => dictSet i e.1 (from_dict e.2 now)) [] =
      (data.map (fun e => (e.1, from_dict e.2 now))).foldl
        (fun i e => dictSet i e.1 e.2) [] := by
    rw [List.foldl_map]
  rw [h1, foldl_dictSet_eq]
  · simp
  · intro k hk
    simp [keys]
  · simpa [List.map_map, Function.comp] using hnodup

theorem keys_load_inventory (data : List (String × ProductDict)) (now : String)
    (hnodup : (data.map Prod.fst).Nodup) :
    keys (load_inventory data now) = data.map Prod.fst := by
  rw [load_inventory_eq data now hnodup]
  simp [keys, List.map_map, Function.comp]

/-! Invariant helpers. -/

theorem invariant_of_keys_eq {inv inv2 : Store} (h : keys inv2 = keys inv)
    (hi : Invariant inv) : Invariant inv2 := by
  refine ⟨?_, ?_⟩
  · intro k hk
    exact hi.1 k (h ▸ hk)
  · rw [WF, h]
    exact hi.2

theorem invariant_dictDel {inv : Store} (k : String) (hi : Invariant inv) :
    Invariant (dictDel inv k) := by
  refine ⟨?_, ?_⟩
  · intro q hq
    exact hi.1 q ((keys_dictDel_sublist inv k).subset hq)
  · exact hi.2.sublist (keys_dictDel_sublist inv k)

theorem invariant_dictSet_fresh {inv : Store} (name : String) (v : Product)
    (hfresh : lookupKey inv (normalize name) = none) (hi : Invariant inv) :
    Invariant (dictSet inv (normalize name) v) := by
  have hnot : normalize name ∉ keys inv := (lookupKey_eq_none_iff inv _).mp hfresh
  rw [dictSet_eq_append inv (normalize name) v hnot]
  refine ⟨?_, ?_⟩
  · intro q hq
    simp only [keys, List.map_append, List.mem_append, List.map_cons, List.map_nil,
      List.mem_singleton] at hq
    rcases hq with h1 | h1
    · exact hi.1 q h1
    · rw [h1]
      exact normalize_normalize name
  · simp only [WF, keys, List.map_append, List.map_cons, List.map_nil]
    rw [List.nodup_append]
    exact ⟨hi.2, List.nodup_singleton _,
      fun a ha hb => hnot ((List.mem_singleton.mp hb) ▸ ha)⟩

/-! Order facts used for the sortedness of search and low-stock output. -/

theorem nameLe_trans : ∀ a b c : Product,
    decide (a.name ≤ b.name) = true → decide (b.name ≤ c.name) = true →
    decide (a.name ≤ c.name) = true := by
  intro a b c h1 h2
  simp only [decide_eq_true_eq] at h1 h2 ⊢
  exact le_trans h1 h2

theorem nameLe_total : ∀ a b : Product,
    (decide (a.name ≤ b.name) || decide (b.name ≤ a.name)) = true := by
  intro a b
  simp only [Bool.or_eq_true, decide_eq_true_eq]
  exact le_total a.name b.name

theorem qtyLe_trans : ∀ a b c : Product,
    decide (a.quantity ≤ b.quantity) = true → decide (b.quantity ≤ c.quantity) = true →
    decide (a.quantity ≤ c.quantity) = true := by
  intro a b c h1 h2
  simp only [decide_eq_true_eq] at h1 h2 ⊢
  omega

theorem qtyLe_total : ∀ a b : Product,
    (decide (a.quantity ≤ b.quantity) || decide (b.quantity ≤ a.quantity)) = true := by
  intro a b
  simp only [Bool.or_eq_true, decide_eq_true_eq]
  omega

/-- Key-set preservation of update_product in every branch. -/
theorem keys_update_product (inv : Store) (name : String) (q : Option Int)
    (pr : Option Rat) (c : Option String) (now : String) :
    keys (update_product inv name q pr c now).1 = keys inv := by
  cases hl : lookupKey inv (normalize name) with
  | none => simp only [update_product, hl]
  | some p =>
    simp only [update_product, hl]
    split
    · exact keys_dictSet_of_mem _ (mem_keys_of_lookupKey hl)
    · rfl

/-! Claim theorems. -/

/-- C1: for every store and every name whose normalized form is already a
key, add with that name (in any letter case) keeps the key set unchanged,
increases the existing record's quantity by q (refreshing its timestamp),
and touches no other key, so no second record is created; in particular
add of "Widget" 10 2.50 then "widget" 5 2.50 on the empty store yields
exactly one record, with quantity 15. -/
theorem claim_C1_add_accumulates (inv : Store) (name : String) (p : Product)
    (q : Int) (price : Rat) (cat now : String)
    (h : lookupKey inv (normalize name) = some p) :
    keys (add_product inv name q price cat now) = keys inv ∧
    lookupKey (add_product inv name q price cat now) (normalize name) =
      some { p with quantity := p.quantity + q, updated_at := now } ∧
    (∀ k, k ≠ normalize name →
      lookupKey (add_product inv name q price cat now) k = lookupKey inv k) ∧
    (add_product (add_product [] "Widget" 10 (5 / 2) "General" "t1")
        "widget" 5 (5 / 2) "General" "t2").map (fun e => e.2.quantity) = [15] := by
  have hb : add_product inv name q price cat now =
      dictSet inv (normalize name)
        { p with quantity := p.quantity + q, updated_at := now } := by
    simp only [add_product, h]
  refine ⟨?_, ?_, ?_, ?_⟩
  · rw [hb]
    exact keys_dictSet_of_mem _ (mem_keys_of_lookupKey h)
  · rw [hb, lookupKey_dictSet, if_pos rfl]
  · intro k hk
    rw [hb, lookupKey_dictSet, if_neg hk]
  · decide

/-- Witness for C1: a repeat add under different letter case and extra
whitespace keeps the single key "widget". -/
theorem claim_C1_add_accumulates_witness :
    keys (add_product [("widget", ⟨"widget", 7, 2, "General", "t0", "t0"⟩)]
      "  WIDGET " 5 2 "Toys" "t2") = ["widget"] :=
  ((claim_C1_add_accumulates [("widget", ⟨"widget", 7, 2, "General", "t0", "t0"⟩)]
      "  WIDGET " ⟨"widget", 7, 2, "General", "t0", "t0"⟩ 5 2 "Toys" "t2"
      (by decide)).1).trans (by decide)

/-- C2: when the normalized name is present with current quantity c,
remove with quantity omitted deletes the record, remove with q at least c
deletes the record, and remove with q below c keeps the record with
quantity exactly c - q and a refreshed updated_at. -/
theorem claim_C2_remove_semantics (inv : Store) (name : String) (p : Product)
    (now : String) (h : lookupKey inv (normalize name) = some p) :
    lookupKey (remove_product inv name none now).1 (normalize name) = none ∧
    (∀ q : Int, p.quantity ≤ q →
      lookupKey (remove_product inv name (some q) now).1 (normalize name) = none) ∧
    (∀ q : Int, q < p.quantity →
      lookupKey (remove_product inv name (some q) now).1 (normalize name) =
        some { p with quantity := p.quantity - q, updated_at := now }) := by
  refine ⟨?_, ?_, ?_⟩
  · have hb : remove_product inv name none now = (dictDel inv (normalize name), true) := by
      simp only [remove_product, h]
    simp only [hb]
    rw [lookupKey_dictDel, if_pos rfl]
  · intro q hq
    have hb : remove_product inv name (some q) now =
        (dictDel inv (normalize name), true) := by
      simp only [remove_product, h]
      rw [if_pos hq]
    simp only [hb]
    rw [lookupKey_dictDel, if_pos rfl]
  · intro q hq
    have hb : remove_product inv name (some q) now =
        (dictSet inv (normalize name)
          { p with quantity := p.quantity - q, updated_at := now }, true) := by
      simp only [remove_product, h]
      rw [if_neg (not_le.mpr hq)]
    simp only [hb]
    rw [lookupKey_dictSet, if_pos rfl]

/-- Witness for C2: removing 9 units of a record holding 4 deletes it. -/
theorem claim_C2_remove_semantics_witness :
    lookupKey (remove_product [("pen", ⟨"pen", 4, 2, "Office", "t0", "t0"⟩)]
      "PEN " (some 9) "t3").1 (normalize "PEN ") = none :=
  (claim_C2_remove_semantics [("pen", ⟨"pen", 4, 2, "Office", "t0", "t0"⟩)]
    "PEN " ⟨"pen", 4, 2, "Office", "t0", "t0"⟩ "t3" (by decide)).2.1 9 (by decide)

/-- C5 fails on the code: the specification requires every stored
quantity (and price) to be non-negative, and the add path of the menu
validates its numeric inputs, but the update path reads the new quantity
and price with no validator and update_product stores them unchecked, so
updating the quantity of "widget" to -5 stores the negative value. -/
theorem claim_C5_negative_quantity_bug :
    (lookupKey (update_product (add_product [] "widget" 1 2 "General" "t1")
        "widget" (some (-5)) none none "t2").1 "widget").map Product.quantity =
      some (-5) := by decide

/-- C9: when the normalized name is not a key, view returns none (the
not-found report), while update and remove return the store unchanged
with the not-found outcome and no save. -/
theorem claim_C9_not_found_unchanged (inv : Store) (name : String) (now : String)
    (h : lookupKey inv (normalize name) = none) :
    view_product inv name = none ∧
    (∀ q pr c, update_product inv name q pr c now = (inv, UpdateOutcome.notFound)) ∧
    (∀ q, remove_product inv name q now = (inv, false)) := by
  refine ⟨h, ?_, ?_⟩
  · intro q pr c
    simp only [update_product, h]
  · intro q
    simp only [remove_product, h]

/-- Witness for C9 on the empty store. -/
theorem claim_C9_not_found_unchanged_witness :
    view_product [] "ghost" = none ∧
    update_product [] "ghost" (some 1) none none "t1" = ([], UpdateOutcome.notFound) ∧
    remove_product [] "ghost" none "t1" = ([], false) :=
  ⟨(claim_C9_not_found_unchanged [] "ghost" "t1" (by decide)).1,
   (claim_C9_not_found_unchanged [] "ghost" "t1" (by decide)).2.1 (some 1) none none,
   (claim_C9_not_found_unchanged [] "ghost" "t1" (by decide)).2.2 none⟩

/-- C10: a repeat add ignores the supplied price and category arguments:
the stored record keeps its previous name, price, category and
created_at, and only quantity and updated_at change. -/
theorem claim_C10_repeat_add_frame (inv : Store) (name : String) (p : Product)
    (q : Int) (price : Rat) (cat now : String)
    (h : lookupKey inv (normalize name) = some p) :
    lookupKey (add_product inv name q price cat now) (normalize name) =
      some { name := p.name, quantity := p.quantity + q, price := p.price,
             category := p.category, created_at := p.created_at, updated_at := now } := by
  have hb : add_product inv name q price cat now =
      dictSet inv (normalize name)
        { p with quantity := p.quantity + q, updated_at := now } := by
    simp only [add_product, h]
  rw [hb, lookupKey_dictSet, if_pos rfl]

/-- Witness for C10: a repeat add with price 9 and category "Odd" keeps
price 3 and category "Office". -/
theorem claim_C10_repeat_add_frame_witness :
    lookupKey (add_product [("pen", ⟨"pen", 4, 3, "Office", "t0", "t0"⟩)]
      "Pen" 6 9 "Odd" "t5") (normalize "Pen") =
      some ⟨"pen", 10, 3, "Office", "t0", "t5"⟩ :=
  (claim_C10_repeat_add_frame [("pen", ⟨"pen", 4, 3, "Office", "t0", "t0"⟩)]
    "Pen" ⟨"pen", 4, 3, "Office", "t0", "t0"⟩ 6 9 "Odd" "t5" (by decide)).trans
    (by decide)

/-- C3: for every well-formed store, saving to the JSON snapshot and
loading that snapshot into a fresh store reproduces the store exactly:
the same keys, and at each key the same name, quantity, price, category,
created_at and updated_at, since store equality is field-wise equality
of every record. -/
theorem claim_C3_save_load_roundtrip (inv : Store) (now : String) (h : WF inv) :
    load_inventory (save_inventory inv) now = inv := by
  have hnodup : ((save_inventory inv).map Prod.fst).Nodup := by
    simpa [save_inventory, keys, WF, List.map_map, Function.comp] using h
  rw [load_inventory_eq _ now hnodup]
  rw [save_inventory, List.map_map]
  have hc : ((fun e => (e.1, from_dict e.2 now)) ∘
      fun e : String × Product => (e.1, to_dict e.2)) = id := by
    funext e
    simp [Function.comp, from_dict_to_dict]
  rw [hc, List.map_id]

/-- Witness for C3 on a two-record store. -/
theorem claim_C3_save_load_roundtrip_witness :
    load_inventory (save_inventory [("pen", ⟨"pen", 4, 2, "Office", "t0", "t1"⟩),
      ("ink", ⟨"ink", 9, 3, "Office", "t0", "t2"⟩)]) "t9" =
      [("pen", ⟨"pen", 4, 2, "Office", "t0", "t1"⟩),
       ("ink", ⟨"ink", 9, 3, "Office", "t0", "t2"⟩)] :=
  claim_C3_save_load_roundtrip
    [("pen", ⟨"pen", 4, 2, "Office", "t0", "t1"⟩),
     ("ink", ⟨"ink", 9, 3, "Office", "t0", "t2"⟩)] "t9" (by decide)

/-- C4: update on a present name overwrites exactly the supplied fields
and refreshes updated_at, reporting success; unsupplied fields keep their
previous values, the key set and every other record are unchanged; and
with no field supplied the whole store (timestamp included) is unchanged
and the no-op outcome is reported. -/
theorem claim_C4_partial_update (inv : Store) (name : String) (p : Product)
    (q : Option Int) (pr : Option Rat) (c : Option String) (now : String)
    (h : lookupKey inv (normalize name) = some p) :
    ((q.isSome || pr.isSome || c.isSome) = true →
      (update_product inv name q pr c now).2 = UpdateOutcome.updated ∧
      lookupKey (update_product inv name q pr c now).1 (normalize name) =
        some { name := p.name, quantity := q.getD p.quantity,
               price := pr.getD p.price, category := c.getD p.category,
               created_at := p.created_at, updated_at := now } ∧
      keys (update_product inv name q pr c now).1 = keys inv ∧
      (∀ k, k ≠ normalize name →
        lookupKey (update_product inv name q pr c now).1 k = lookupKey inv k)) ∧
    (q = none → pr = none → c = none →
      update_product inv name q pr c now = (inv, UpdateOutcome.noChanges)) := by
  constructor
  · intro hsome
    have hb : update_product inv name q pr c now =
        (dictSet inv (normalize name)
          { name := p.name, quantity := q.getD p.quantity,
            price := pr.getD p.price, category := c.getD p.category,
            created_at := p.created_at, updated_at := now },
         UpdateOutcome.updated) := by
      rcases q with _ | qv <;> rcases pr with _ | prv <;> rcases c with _ | cv <;>
        simp_all [update_product]
    refine ⟨?_, ?_, ?_, ?_⟩
    · rw [hb]
    · simp only [hb]
      rw [lookupKey_dictSet, if_pos rfl]
    · simp only [hb]
      exact keys_dictSet_of_mem _ (mem_keys_of_lookupKey h)
    · intro k hk
      simp only [hb]
      rw [lookupKey_dictSet, if_neg hk]
  · rintro rfl rfl rfl
    simp [update_product, h]

/-- Witness for C4: updating only the price of "pen" succeeds. -/
theorem claim_C4_partial_update_witness :
    (update_product [("pen", ⟨"pen", 4, 3, "Office", "t0", "t0"⟩)]
      "pen" none (some 7) none "t4").2 = UpdateOutcome.updated :=
  ((claim_C4_partial_update [("pen", ⟨"pen", 4, 3, "Office", "t0", "t0"⟩)]
      "pen" ⟨"pen", 4, 3, "Office", "t0", "t0"⟩ none (some 7) none "t4"
      (by decide)).1 (by decide)).1

/-- C6 as stated is false on the code: search strips the query before
matching, so the query "wid " (with a trailing blank) returns the record
named "widget" although neither the name "widget" nor the category
"General" contains "wid " as a substring under case-insensitive
comparison. -/
theorem claim_C6_counterexample :
    (search_products [("widget", ⟨"widget", 10, 2, "General", "t1", "t1"⟩)]
        "wid ").map Product.name = ["widget"] ∧
    ¬ MatchesQuery "wid " ⟨"widget", 10, 2, "General", "t1", "t1"⟩ := by
  constructor
  · have hf : (List.filter
        (fun p => subOf (normalize "wid ").data (pyLower p.name).data ||
          subOf (normalize "wid ").data (pyLower p.category).data)
        (List.map Prod.snd
          [("widget", (⟨"widget", 10, 2, "General", "t1", "t1"⟩ : Product))])) =
        [(⟨"widget", 10, 2, "General", "t1", "t1"⟩ : Product)] := by decide
    simp only [search_products]
    rw [hf, List.mergeSort_singleton]
    rfl
  · rw [MatchesQuery_iff]
    decide

/-- C6 amended: search returns exactly those records whose name or
category contains the trimmed query as a substring under
case-insensitive comparison (a permutation of the filtered values, with
the membership characterization), sorted ascending by record name. -/
theorem claim_C6_search_amended (inv : Store) (query : String) :
    (search_products inv query).Perm
      ((inv.map Prod.snd).filter
        (fun p => subOf (normalize query).data (pyLower p.name).data ||
          subOf (normalize query).data (pyLower p.category).data)) ∧
    (∀ p, p ∈ search_products inv query ↔
      p ∈ inv.map Prod.snd ∧ MatchesQuery (pyStrip query) p) ∧
    List.Pairwise (fun a b : Product => a.name ≤ b.name) (search_products inv query) := by
  have hperm : (search_products inv query).Perm
      ((inv.map Prod.snd).filter
        (fun p => subOf (normalize query).data (pyLower p.name).data ||
          subOf (normalize query).data (pyLower p.category).data)) :=
    List.mergeSort_perm _ _
  refine ⟨hperm, ?_, ?_⟩
  · intro p
    rw [hperm.mem_iff, List.mem_filter, MatchesQuery_iff]
    rfl
  · have hs := @List.sorted_mergeSort Product
      (fun a b => decide (a.name ≤ b.name)) nameLe_trans nameLe_total
      ((inv.map Prod.snd).filter
        (fun p => subOf (normalize query).data (pyLower p.name).data ||
          subOf (normalize query).data (pyLower p.category).data))
    exact hs.imp (fun hab => by simpa using hab)

/-- C7: the low-stock listing returns exactly the records whose quantity
is at most the threshold (a permutation of the filtered values, with the
membership characterization) sorted ascending by quantity. -/
theorem claim_C7_low_stock (inv : Store) (t : Int) :
    (low_stock_alert inv t).Perm
      ((inv.map Prod.snd).filter (fun p => decide (p.quantity ≤ t))) ∧
    (∀ p, p ∈ low_stock_alert inv t ↔ p ∈ inv.map Prod.snd ∧ p.quantity ≤ t) ∧
    List.Pairwise (fun a b : Product => a.quantity ≤ b.quantity)
      (low_stock_alert inv t) := by
  have hperm : (low_stock_alert inv t).Perm
      ((inv.map Prod.snd).filter (fun p => decide (p.quantity ≤ t))) :=
    List.mergeSort_perm _ _
  refine ⟨hperm, ?_, ?_⟩
  · intro p
    rw [hperm.mem_iff, List.mem_filter, decide_eq_true_eq]
  · have hs := @List.sorted_mergeSort Product
      (fun a b => decide (a.quantity ≤ b.quantity)) qtyLe_trans qtyLe_total
      ((inv.map Prod.snd).filter (fun p => decide (p.quantity ≤ t)))
    exact hs.imp (fun hab => by simpa using hab)

/-- C8 as stated is false on the code: load inserts file keys without
normalizing them (inventory.py line 63), so loading a file whose key is
"Widget" yields a store whose only key differs from its normalized
form "widget". -/
theorem claim_C8_counterexample :
    keys (load_inventory
        [("Widget", ⟨"Widget", 5, 2, some "General", some "t0", some "t0"⟩)] "t1") =
      ["Widget"] ∧
    normalize "Widget" ≠ "Widget" := by decide

/-- C8 amended: when the loaded file's keys are already normalized and
pairwise distinct (as in any file produced by save from a well-formed
store), the loaded store satisfies the invariant; every store operation
preserves the invariant; and under the invariant no two records share a
normalized name. -/
theorem claim_C8_amended_invariant :
    (∀ data now, (∀ k ∈ data.map Prod.fst, normalize k = k) →
      (data.map Prod.fst).Nodup → Invariant (load_inventory data now)) ∧
    (∀ inv name q price cat now, Invariant inv →
      Invariant (add_product inv name q price cat now)) ∧
    (∀ inv name q pr c now, Invariant inv →
      Invariant (update_product inv name q pr c now).1) ∧
    (∀ inv name q now, Invariant inv →
      Invariant (remove_product inv name q now).1) ∧
    (∀ inv, Invariant inv → ((keys inv).map normalize).Nodup) := by
  refine ⟨?_, ?_, ?_, ?_, ?_⟩
  · intro data now hnorm hnodup
    refine ⟨?_, ?_⟩
    · intro k hk
      rw [keys_load_inventory data now hnodup] at hk
      exact hnorm k hk
    · rw [WF, keys_load_inventory data now hnodup]
      exact hnodup
  · intro inv name q price cat now hi
    cases hl : lookupKey inv (normalize name) with
    | some p =>
      have hb : add_product inv name q price cat now =
          dictSet inv (normalize name)
            { p with quantity := p.quantity + q, updated_at := now } := by
        simp only [add_product, hl]
      rw [hb]
      exact invariant_of_keys_eq (keys_dictSet_of_mem _ (mem_keys_of_lookupKey hl)) hi
    | none =>
      have hb : add_product inv name q price cat now =
          dictSet inv (normalize name)
            { name := normalize name, quantity := q, price := price,
              category := cat, created_at := now, updated_at := now } := by
        simp only [add_product, hl]
      rw [hb]
      exact invariant_dictSet_fresh name _ hl hi
  · intro inv name q pr c now hi
    exact invariant_of_keys_eq (keys_update_product inv name q pr c now) hi
  · intro inv name q now hi
    cases hl : lookupKey inv (normalize name) with
    | none =>
      have hb : (remove_product inv name q now).1 = inv := by
        simp only [remove_product, hl]
      rw [hb]
      exact hi
    | some p =>
      cases q with
      | none =>
        have hb : (remove_product inv name none now).1 = dictDel inv (normalize name) := by
          simp only [remove_product, hl]
        rw [hb]
        exact invariant_dictDel _ hi
      | some qv =>
        by_cases hq : qv ≥ p.quantity
        · have hb : (remove_product inv name (some qv) now).1 =
              dictDel inv (normalize name) := by
            simp only [remove_product, hl]
            rw [if_pos hq]
          rw [hb]
          exact invariant_dictDel _ hi
        · have hb : (remove_product inv name (some qv) now).1 =
              dictSet inv (normalize name)
                { p with quantity := p.quantity - qv, updated_at := now } := by
            simp only [remove_product, hl]
            rw [if_neg hq]
          rw [hb]
          exact invariant_of_keys_eq
            (keys_dictSet_of_mem _ (mem_keys_of_lookupKey hl)) hi
  · intro inv hi
    have h1 : (keys inv).map normalize = (keys inv).map id :=
      List.map_congr_left (fun k hk => hi.1 k hk)
    rw [h1, List.map_id]
    exact hi.2

/-- Witness for the amended C8: adding to the empty store establishes the
invariant. -/
theorem claim_C8_amended_invariant_witness :
    Invariant (add_product [] "  WidGet " 3 2 "Toys" "t1") :=
  claim_C8_amended_invariant.2.1 [] "  WidGet " 3 2 "Toys" "t1"
    ⟨fun k hk => absurd hk (List.not_mem_nil k), List.nodup_nil⟩

end Inventory
